import Mathlib

/-!
A shallow embedding of the contingency-table conversion utilities of
`src/utils.py`: the `DataProcessor` converters (`_process_case_form`,
`_process_frequency_form`, `_process_table_form`, `_apply_category_mapping`)
and the free functions `gen_contingency_to_case_form` and
`gen_case_form_to_contingency`.

Arrays are modelled as lists: a 2D numpy array becomes a rectangular
`List (List ℚ)` of rows (an array of mixed string/numeric content, i.e. of
object dtype, becomes `List (List Cell)`), and an N-dimensional table of
shape `s` becomes its C-order (row-major) flattening, a `List ℤ` of length
`s.prod`.  Python `int(x)` truncates toward zero, modelled on `ℚ` by
`truncQ`.  numpy integer indexing on an axis of size `d` accepts indices in
`[-d, d)`, a negative index `k` silently addressing position `k + d`;
`normIndex` reproduces exactly this, and `ravel` turns an index tuple into a
C-order flat offset the way numpy addresses a cell of an N-dimensional
array, `none` standing for the `IndexError` numpy raises on anything outside
`[-d, d)`.
-/

attribute [local semireducible] Rat.sub Rat.add Rat.mul Rat.inv

deriving instance DecidableEq for Except

namespace Utils

/-- Python `int(x)` on a rational value: truncation toward zero. -/
def truncQ (q : ℚ) : ℤ := q.num.tdiv (q.den : ℤ)

/-- Exact embedding of a list of integers into the rationals (an integer
numpy array viewed as a float array). -/
def ratsOfInts (l : List ℤ) : List ℚ := l.map fun z : ℤ => (z : ℚ)

/-- numpy integer indexing on one axis of size `d`: an index in `[0, d)` is
used as is, an index in `[-d, 0)` silently wraps to `k + d`, and anything
else raises `IndexError` (`none`). -/
def normIndex (d : ℕ) (k : ℤ) : Option ℕ :=
  if 0 ≤ k ∧ k < (d : ℤ) then some k.toNat
  else if -(d : ℤ) ≤ k ∧ k < 0 then some (k + d).toNat
  else none

/-- C-order flat offset of the cell addressed by the integer tuple `ks` in
an array of shape `shape`, with numpy single-axis indexing semantics
(`none` = `IndexError`). -/
def ravel : List ℕ → List ℤ → Option ℕ
  | [], [] => some 0
  | d :: ds, k :: ks => do
    let i ← normIndex d k
    let r ← ravel ds ks
    some (i * ds.prod + r)
  | _, _ => none

/-- C-order flat offset of an in-bounds `ℕ`-tuple (no wrapping involved). -/
def flatIdx : List ℕ → List ℕ → ℕ
  | _ :: ds, i :: rest => i * ds.prod + flatIdx ds rest
  | _, _ => 0

/-- Inverse of `flatIdx`: the C-order multi-index of flat offset `j`. -/
def unflatten : List ℕ → ℕ → List ℕ
  | [], _ => []
  | _ :: ds, j => (j / ds.prod) :: unflatten ds (j % ds.prod)

/-- One `table[idx] += 1` step of a counting loop: `F` computes the flat
offset of the row's cell (`none` = `IndexError`). -/
def incrStep {α : Type} (F : α → Option ℕ) (t : List ℤ) (a : α) :
    Except String (List ℤ) :=
  match F a with
  | some f => .ok (t.set f (t.getD f 0 + 1))
  | none => .error "IndexError"

/-- One `table[idx] = int(freq)` step of the frequency-form loop. -/
def assignStep {α : Type} (F : α → Option ℕ) (V : α → ℤ) (t : List ℤ) (a : α) :
    Except String (List ℤ) :=
  match F a with
  | some f => .ok (t.set f (V a))
  | none => .error "IndexError"

/-- `DataProcessor._process_case_form`: after checking that the number of
columns matches the number of declared dimensions (`data.shape[1] ==
len(shape)`; for a rectangular array this is the per-row length check; the
`data.ndim != 2` check is intrinsic to the row-list representation), every
cell is shifted by `- 1`, a zero table of shape `shape` is allocated, and
every row increments the cell addressed by its truncated index tuple. -/
def process_case_form (data : List (List ℚ)) (shape : List ℕ) :
    Except String (List ℤ) :=
  if data.all (fun r => r.length == shape.length) then
    (data.map fun r => r.map fun q => q - 1).foldlM
      (incrStep fun case => ravel shape (case.map truncQ))
      (List.replicate shape.prod 0)
  else .error "Number of variables does not match shape"

/-- The 0-based integer index tuple a case-form row addresses, after the
`- 1` shift and the `int(...)` truncation of `_process_case_form`. -/
def caseTuple (r : List ℚ) : List ℤ := r.map fun q => truncQ (q - 1)

/-- `DataProcessor._process_frequency_form`: the rows must have
`len(shape) + 1` columns; the leading columns are shifted by `- 1` and the
cell they address is *assigned* (not accumulated) the truncated value of the
trailing frequency column. -/
def process_frequency_form (data : List (List ℚ)) (shape : List ℕ) :
    Except String (List ℤ) :=
  if data.all (fun r => r.length == shape.length + 1) then
    data.foldlM
      (assignStep
        (fun r => ravel shape (((r.take shape.length).map fun q => q - 1).map truncQ))
        (fun r => truncQ (r.getD shape.length 0)))
      (List.replicate shape.prod 0)
  else .error "Frequency form should have n+1 columns (n variables + frequency)"

/-- A raw N-dimensional numpy array handed to `_process_table_form`:
declared shape plus C-order flattened (float) cells. -/
structure NDTable where
  shape : List ℕ
  data : List ℚ
deriving DecidableEq

/-- `DataProcessor._process_table_form`: the array's shape must equal the
declared shape exactly (the `ValueError` message interpolates both shapes;
the apostrophe of the original "doesn't" is spelled "does not" here); on
success the data is returned coerced by `astype(int)`, i.e. truncated
cellwise. -/
def process_table_form (data : NDTable) (shape : List ℕ) :
    Except String (List ℤ) :=
  if data.shape = shape then .ok (data.data.map truncQ)
  else
    .error ("Table shape " ++ toString data.shape ++
      " does not match specified shape " ++ toString shape)

/-- A cell of a raw (possibly non-numeric) rectangular input array: object
dtype, each cell a Python number or string. -/
inductive Cell where
  | num (q : ℚ)
  | str (s : String)
deriving DecidableEq

/-- Whether a cell is numeric. -/
def Cell.isNum : Cell → Bool
  | .num _ => true
  | .str _ => false

/-- Numeric value of a cell of an all-numeric array (used on the
already-numeric fast path of `_apply_category_mapping`, where no string
cells occur). -/
def Cell.toQ : Cell → ℚ
  | .num q => q
  | .str _ => 0

/-- Python `str.strip()` on a character list: surrounding whitespace
removed. -/
def stripChars (cs : List Char) : List Char :=
  ((cs.dropWhile Char.isWhitespace).reverse.dropWhile Char.isWhitespace).reverse

/-- Python `str.strip()`. -/
def pyStrip (s : String) : String := ⟨stripChars s.data⟩

/-- Cell at row `ri`, column `i` of a rectangular list-of-rows array. -/
def cellAt (g : List (List Cell)) (ri i : ℕ) : Cell := (g.getD ri []).getD i (.str "")

/-- `_map_category` of `_apply_category_mapping`: a string cell is stripped
of surrounding whitespace and looked up in the variable's map `var_map` (an
association list modelling the Python dict); a mapped label becomes its
integer index, an absent label is returned — stripped — unchanged
(`var_map.get(value, value)` after `value = value.strip()`); non-string
cells pass through. -/
def map_category (value : Cell) (var_map : List (String × ℤ)) : Cell :=
  match value with
  | .str s =>
    match List.lookup (pyStrip s) var_map with
    | some k => .num (k : ℚ)
    | none => .str (pyStrip s)
  | v => v

/-- Variable name of column `i`: `var_list[i] if var_list else str(i)`
(`var_list` is falsy both when `None` and when empty). -/
def varName (var_list : Option (List String)) (i : ℕ) : String :=
  match var_list with
  | some l => if l ≠ [] then l.getD i "" else toString i
  | none => toString i

/-- The per-column mapping loop of `_apply_category_mapping`: for each
variable column `i` whose name is a key of `category_map`, the column of
`result` is replaced by `_map_category` applied to the cells of the same
column of the original `data` (the source reads `data[:, i]` and writes
`result[:, i]`, which `zipWith` over the accumulated rows and the original
rows reproduces). -/
def apply_column_maps (data : List (List Cell))
    (category_map : List (String × List (String × ℤ)))
    (var_list : Option (List String)) (n_vars : ℕ) : List (List Cell) :=
  (List.range n_vars).foldl
    (fun res i =>
      match List.lookup (varName var_list i) category_map with
      | some var_map =>
        List.zipWith
          (fun rrow drow => rrow.set i (map_category (drow.getD i (.str "")) var_map))
          res data
      | none => res)
    data

/-- Numeric value of a nonempty digit string. -/
def digitsToNat (cs : List Char) : ℕ :=
  cs.foldl (fun n c => 10 * n + (c.toNat - 48)) 0

/-- Python float parsing of an unsigned decimal literal: digits with an
optional decimal point (`"12"`, `"12."`, `".5"`, `"1.25"`).  This models the
numeric-string conversion performed by `astype(float)` on the fragment of
literals this module deals with (scientific notation, `inf` and `nan` do not
occur in category labels). -/
def parseUnsigned? (cs : List Char) : Option ℚ :=
  let a := cs.takeWhile (fun c => c ≠ '.')
  let b := cs.dropWhile (fun c => c ≠ '.')
  match b with
  | [] => if a ≠ [] ∧ a.all Char.isDigit then some ((digitsToNat a : ℤ) : ℚ) else none
  | _ :: rest =>
    if (rest.all fun c => c ≠ '.') ∧ (a ≠ [] ∨ rest ≠ []) ∧
        a.all Char.isDigit ∧ rest.all Char.isDigit then
      some (mkRat ((digitsToNat a) * 10 ^ rest.length + digitsToNat rest) (10 ^ rest.length))
    else none

/-- Python `float(s)` (as invoked by `astype(float)` on a string cell):
surrounding whitespace is ignored, an optional sign precedes an unsigned
decimal literal; `none` is a conversion failure. -/
def parseFloat? (s : String) : Option ℚ :=
  match stripChars s.data with
  | '-' :: rest => (parseUnsigned? rest).map (fun q => -q)
  | '+' :: rest => parseUnsigned? rest
  | cs => parseUnsigned? cs

/-- `astype(float)` on one cell of an object array: numbers convert exactly,
strings go through Python float parsing. -/
def coerceCell : Cell → Option ℚ
  | .num q => some q
  | .str s => parseFloat? s

/-- `result.astype(float)` over the whole array: `none` when some cell
cannot be converted. -/
def coerceGrid (g : List (List Cell)) : Option (List (List ℚ)) :=
  g.mapM fun r => r.mapM coerceCell

/-- The `set(bad_values)` reported when the final numeric coercion fails:
the `mask` of cells that are not `int`/`float` instances selects exactly the
string cells of the (object-dtype) array, scanned in C order; `set(...)`
keeps the distinct values. -/
def badValues (g : List (List Cell)) : List String :=
  (g.flatMap fun r => r.filterMap fun c =>
    match c with
    | Cell.str s => some s
    | Cell.num _ => none).dedup

/-- Failures of `_apply_category_mapping`: the numeric-conversion
`ValueError` names the set of values that could not be converted. -/
inductive MappingFailure where
  | numericConversion (bad : List String)
deriving DecidableEq

/-- `DataProcessor._apply_category_mapping`: an already-numeric array is
returned unchanged; otherwise, for case- and frequency-form data, each
mapped variable's column is rewritten by `_map_category`, and the result is
coerced to float, a failure reporting the distinct unconvertible values.
(The `except` branch around the per-column rewrite is dead code:
`_map_category` cannot raise, `dict.get` and `str.strip` being total.) -/
def apply_category_mapping (data : List (List Cell))
    (category_map : List (String × List (String × ℤ)))
    (var_list : Option (List String)) (data_form : String) :
    Except MappingFailure (List (List ℚ)) :=
  if data.all (fun r => r.all Cell.isNum) then
    .ok (data.map fun r => r.map Cell.toQ)
  else
    let n_cols := (data.head?.getD []).length
    let result :=
      if data_form = "case_form" ∨ data_form = "frequency_form" then
        let n_vars :=
          match var_list with
          | some l => if l ≠ [] then l.length else n_cols
          | none => n_cols
        apply_column_maps data category_map var_list n_vars
      else data
    match coerceGrid result with
    | some g => .ok g
    | none => .error (.numericConversion (badValues result))

/-- A numpy `cases` argument of `gen_case_form_to_contingency`: either a
flat 2D array of rows or a 3D stack of batches of rows.  `np.array` of an
empty list of rows is one-dimensional, so an empty `d2` models the
one-dimensional empty array. -/
inductive NPCases where
  | d2 (rows : List (List ℚ))
  | d3 (batches : List (List (List ℚ)))

/-- `cases.shape[1]`: for a (rectangular, nonempty) 2D array the common row
length, for a 3D stack the number of rows per batch — not the column count;
`none` models the `IndexError: tuple index out of range` on a
one-dimensional (empty) `cases`. -/
def npShape1 : NPCases → Option ℕ
  | .d2 [] => none
  | .d2 (r :: _) => some r.length
  | .d3 [] => none
  | .d3 (b :: _) => some b.length

/-- `_get_full_index` of `gen_case_form_to_contingency`: start from
`[0] * n_axes` and set `idx[axis] = int(case[i])` for `i, axis` in
`enumerate(axis_order)`; `none` models the `IndexError` when `axis` is not a
valid position of `idx` or `i` not one of `case`. -/
def get_full_index (n_axes : ℕ) (case : List ℚ) (axis_order : List ℕ) :
    Option (List ℤ) :=
  axis_order.enum.foldlM
    (fun idx p =>
      if p.2 < n_axes ∧ p.1 < case.length then
        some (idx.set p.2 (truncQ (case.getD p.1 0)))
      else none)
    (List.replicate n_axes 0)

/-- `gen_case_form_to_contingency`: when `axis_order` is omitted it defaults
to `list(range(cases.shape[1]))`; a zero table of the target shape is
allocated and every case (batches iterated outer, rows inner, for 3D input)
increments the cell addressed by its full index. -/
def gen_case_form_to_contingency (cases : NPCases) (shape : List ℕ)
    (axis_order : Option (List ℕ)) : Except String (List ℤ) := do
  let ao ← match axis_order with
    | some a => pure a
    | none =>
      match npShape1 cases with
      | some n => pure (List.range n)
      | none => Except.error "IndexError: tuple index out of range"
  let step := incrStep fun case => (get_full_index shape.length case ao).bind (ravel shape)
  match cases with
  | .d3 batches =>
    batches.foldlM (fun t batch => batch.foldlM step t) (List.replicate shape.prod 0)
  | .d2 rows => rows.foldlM step (List.replicate shape.prod 0)

/-- An N-dimensional contingency table: declared shape plus C-order
flattened integer cells. -/
structure IntTable where
  shape : List ℕ
  data : List ℤ
deriving DecidableEq

/-- `gen_contingency_to_case_form`: `np.nonzero` scans the cells in C order;
every non-zero cell of multi-index `idx` and count `c` contributes
`[list(idx)] * int(c)` rows (so a negative count contributes none). -/
def gen_contingency_to_case_form (t : IntTable) : List (List ℕ) :=
  ((List.range t.shape.prod).filter fun j => t.data.getD j 0 ≠ 0).flatMap
    fun j => List.replicate (t.data.getD j 0).toNat (unflatten t.shape j)

/-- A valid case-form row for dimension `shape`: one integral 1-based
category index per declared variable, within the declared bounds. -/
def validCaseRow (shape : List ℕ) (r : List ℚ) : Prop :=
  r.length = shape.length ∧
  ∀ i < shape.length,
    (r.getD i 0).den = 1 ∧ 1 ≤ r.getD i 0 ∧ r.getD i 0 ≤ (shape.getD i 0 : ℚ)

instance (shape : List ℕ) (r : List ℚ) : Decidable (validCaseRow shape r) := by
  unfold validCaseRow
  infer_instance

/-- A valid frequency-form row: `len(shape)` integral in-bounds 1-based
indices followed by a frequency column. -/
def validFreqRow (shape : List ℕ) (r : List ℚ) : Prop :=
  r.length = shape.length + 1 ∧
  ∀ i < shape.length,
    (r.getD i 0).den = 1 ∧ 1 ≤ r.getD i 0 ∧ r.getD i 0 ≤ (shape.getD i 0 : ℚ)

instance (shape : List ℕ) (r : List ℚ) : Decidable (validFreqRow shape r) := by
  unfold validFreqRow
  infer_instance

/-! ### Arithmetic helper lemmas -/

theorem truncQ_intCast (k : ℤ) : truncQ (k : ℚ) = k := by
  simp [truncQ, Rat.num_intCast, Rat.den_intCast]

theorem truncQ_natCast (k : ℕ) : truncQ (k : ℚ) = (k : ℤ) := by
  simpa using truncQ_intCast (k : ℤ)

theorem truncQ_nonneg {q : ℚ} (h : 0 ≤ q) : 0 ≤ truncQ q :=
  Int.tdiv_nonneg (Rat.num_nonneg.mpr h) (by positivity)

theorem intCast_num_of_den_eq_one {q : ℚ} (h : q.den = 1) : (q.num : ℚ) = q := by
  conv_rhs => rw [← Rat.num_div_den q]
  rw [h]
  simp

theorem truncQ_sub_one_of_den_eq_one {q : ℚ} (h : q.den = 1) :
    truncQ (q - 1) = q.num - 1 := by
  have h1 : q - 1 = ((q.num - 1 : ℤ) : ℚ) := by
    push_cast
    rw [intCast_num_of_den_eq_one h]
  rw [h1, truncQ_intCast]

/-! ### `List.getD` / `List.set` helper lemmas -/

theorem getD_set_self (l : List ℤ) (f : ℕ) (v : ℤ) (h : f < l.length) :
    (l.set f v).getD f 0 = v := by
  simp [List.getD_eq_getElem?_getD, List.getElem?_set, h]

theorem getD_set_ne (l : List ℤ) {f j : ℕ} (v : ℤ) (h : f ≠ j) :
    (l.set f v).getD j 0 = l.getD j 0 := by
  simp [List.getD_eq_getElem?_getD, List.getElem?_set, h]

theorem getD_nonneg {l : List ℤ} (h : ∀ x ∈ l, 0 ≤ x) (j : ℕ) : 0 ≤ l.getD j 0 := by
  rcases Nat.lt_or_ge j l.length with hj | hj
  · rw [List.getD_eq_getElem?_getD, List.getElem?_eq_getElem hj]
    exact h _ (List.getElem_mem hj)
  · rw [List.getD_eq_getElem?_getD, List.getElem?_eq_none hj]
    simp

theorem sum_set_incr (l : List ℤ) (f : ℕ) (h : f < l.length) :
    (l.set f (l.getD f 0 + 1)).sum = l.sum + 1 := by
  induction l generalizing f with
  | nil => simp at h
  | cons a t ih =>
    cases f with
    | zero => simp [List.getD_cons_zero]; ring
    | succ f =>
      have h' : f < t.length := by simpa using h
      simp only [List.getD_cons_succ]
      show (a :: t.set f (t.getD f 0 + 1)).sum = (a :: t).sum + 1
      rw [List.sum_cons, List.sum_cons, ih f h']
      ring

theorem ext_getD {l₁ l₂ : List ℤ} (hl : l₁.length = l₂.length)
    (h : ∀ j, l₁.getD j 0 = l₂.getD j 0) : l₁ = l₂ := by
  apply List.ext_getElem hl
  intro n h₁ h₂
  have := h n
  rwa [List.getD_eq_getElem?_getD, List.getD_eq_getElem?_getD,
    List.getElem?_eq_getElem h₁, List.getElem?_eq_getElem h₂] at this

theorem getD_map_q (l : List ℚ) (f : ℚ → ℤ) {i : ℕ} (h : i < l.length) :
    (l.map f).getD i 0 = f (l.getD i 0) := by
  rw [List.getD_eq_getElem?_getD, List.getD_eq_getElem?_getD,
    List.getElem?_eq_getElem h, List.getElem?_eq_getElem (by simpa using h)]
  simp

/-! ### Flat-index lemmas -/

theorem normIndex_of_nonneg_lt {d : ℕ} {k : ℤ} (h0 : 0 ≤ k) (h : k < (d : ℤ)) :
    normIndex d k = some k.toNat := by
  simp [normIndex, h0, h]

theorem normIndex_lt {d : ℕ} {k : ℤ} {i : ℕ} (h : normIndex d k = some i) : i < d := by
  unfold normIndex at h
  split_ifs at h with h1 h2
  · obtain ⟨h0, hk⟩ := h1
    cases h
    omega
  · obtain ⟨hge, hlt⟩ := h2
    cases h
    omega

theorem ravel_some_lt : ∀ (shape : List ℕ) (ks : List ℤ) {f : ℕ},
    ravel shape ks = some f → f < shape.prod
  | [], [], f => by
    intro h
    simp only [ravel, Option.some.injEq] at h
    simp [← h]
  | [], _ :: _, _ => by intro h; simp [ravel] at h
  | _ :: _, [], _ => by intro h; simp [ravel] at h
  | d :: ds, k :: ks, f => by
    intro h
    simp only [ravel, Option.bind_eq_bind] at h
    cases hi : normIndex d k with
    | none => rw [hi] at h; simp at h
    | some i =>
      rw [hi] at h
      cases hr : ravel ds ks with
      | none => rw [hr] at h; simp at h
      | some r =>
        rw [hr] at h
        have hf : f = i * ds.prod + r := by
          simp at h
          omega
        have hilt : i < d := normIndex_lt hi
        have hrlt : r < ds.prod := ravel_some_lt ds ks hr
        rw [hf, List.prod_cons]
        calc i * ds.prod + r < i * ds.prod + ds.prod := Nat.add_lt_add_left hrlt _
          _ = (i + 1) * ds.prod := (Nat.succ_mul i ds.prod).symm
          _ ≤ d * ds.prod := Nat.mul_le_mul_right ds.prod hilt

theorem ravel_inBounds : ∀ (shape : List ℕ) (ks : List ℤ),
    ks.length = shape.length →
    (∀ i < shape.length, 0 ≤ ks.getD i 0 ∧ ks.getD i 0 < (shape.getD i 0 : ℤ)) →
    ravel shape ks = some (flatIdx shape (ks.map Int.toNat))
  | [], [] => by intro _ _; simp [ravel, flatIdx]
  | [], _ :: _ => by intro hl; simp at hl
  | _ :: _, [] => by intro hl; simp at hl
  | d :: ds, k :: ks => by
    intro hl hb
    have h0 := hb 0 (Nat.succ_pos _)
    simp only [List.getD_cons_zero] at h0
    have hn : normIndex d k = some k.toNat := normIndex_of_nonneg_lt h0.1 h0.2
    have ht : ravel ds ks = some (flatIdx ds (ks.map Int.toNat)) := by
      apply ravel_inBounds ds ks (by simpa using hl)
      intro i hi
      have := hb (i + 1) (by simpa using hi)
      simpa using this
    simp [ravel, hn, ht, flatIdx]

theorem flatIdx_lt : ∀ (shape : List ℕ) (ix : List ℕ),
    ix.length = shape.length →
    (∀ i < shape.length, ix.getD i 0 < shape.getD i 0) →
    flatIdx shape ix < shape.prod
  | [], [] => by intro _ _; simp [flatIdx]
  | [], _ :: _ => by intro hl; simp at hl
  | _ :: _, [] => by intro hl; simp at hl
  | d :: ds, x :: xs => by
    intro hl hb
    have h0 := hb 0 (Nat.succ_pos _)
    simp only [List.getD_cons_zero] at h0
    have ht : flatIdx ds xs < ds.prod := by
      apply flatIdx_lt ds xs (by simpa using hl)
      intro j hj
      have := hb (j + 1) (by simpa using hj)
      simpa using this
    simp only [flatIdx, List.prod_cons]
    calc x * ds.prod + flatIdx ds xs < x * ds.prod + ds.prod := Nat.add_lt_add_left ht _
      _ = (x + 1) * ds.prod := (Nat.succ_mul x ds.prod).symm
      _ ≤ d * ds.prod := Nat.mul_le_mul_right ds.prod h0

theorem flatIdx_inj : ∀ (shape : List ℕ) (a b : List ℕ),
    a.length = shape.length → b.length = shape.length →
    (∀ i < shape.length, a.getD i 0 < shape.getD i 0) →
    (∀ i < shape.length, b.getD i 0 < shape.getD i 0) →
    flatIdx shape a = flatIdx shape b → a = b
  | [], [], [], _, _, _, _, _ => rfl
  | [], _ :: _, _, hl, _, _, _, _ => by simp at hl
  | [], [], _ :: _, _, hl, _, _, _ => by simp at hl
  | _ :: _, [], _, hl, _, _, _, _ => by simp at hl
  | _ :: _, _ :: _, [], _, hl, _, _, _ => by simp at hl
  | d :: ds, x :: xs, y :: ys, hla, hlb, hba, hbb, heq => by
    have hta : ∀ i < ds.length, xs.getD i 0 < ds.getD i 0 := by
      intro i hi
      have := hba (i + 1) (by simpa using hi)
      simpa using this
    have htb : ∀ i < ds.length, ys.getD i 0 < ds.getD i 0 := by
      intro i hi
      have := hbb (i + 1) (by simpa using hi)
      simpa using this
    have hx : flatIdx ds xs < ds.prod :=
      flatIdx_lt ds xs (by simpa using hla) hta
    have hy : flatIdx ds ys < ds.prod :=
      flatIdx_lt ds ys (by simpa using hlb) htb
    have hp : 0 < ds.prod := Nat.lt_of_le_of_lt (Nat.zero_le _) hx
    simp only [flatIdx] at heq
    have hxy : x = y := by
      have e1 : (ds.prod * x + flatIdx ds xs) / ds.prod = x := by
        rw [Nat.mul_add_div hp, Nat.div_eq_of_lt hx, Nat.add_zero]
      have e2 : (ds.prod * y + flatIdx ds ys) / ds.prod = y := by
        rw [Nat.mul_add_div hp, Nat.div_eq_of_lt hy, Nat.add_zero]
      rw [Nat.mul_comm ds.prod x] at e1
      rw [Nat.mul_comm ds.prod y] at e2
      rw [← e1, ← e2, heq]
    subst hxy
    have htail : flatIdx ds xs = flatIdx ds ys := by omega
    rw [flatIdx_inj ds xs ys (by simpa using hla) (by simpa using hlb) hta htb htail]

theorem unflatten_length : ∀ (shape : List ℕ) (j : ℕ),
    (unflatten shape j).length = shape.length
  | [], _ => rfl
  | _ :: ds, j => by simp [unflatten, unflatten_length ds]

theorem unflatten_lt : ∀ (shape : List ℕ) (j : ℕ), j < shape.prod →
    ∀ i < shape.length, (unflatten shape j).getD i 0 < shape.getD i 0
  | [], _ => by intro _ i hi; simp at hi
  | d :: ds, j => by
    intro hj i hi
    have hp : 0 < ds.prod := by
      rcases Nat.eq_zero_or_pos ds.prod with h | h
      · rw [List.prod_cons, h, Nat.mul_zero] at hj
        omega
      · exact h
    rw [List.prod_cons] at hj
    cases i with
    | zero =>
      simp only [unflatten, List.getD_cons_zero]
      rw [Nat.div_lt_iff_lt_mul hp]
      exact hj
    | succ i =>
      simp only [unflatten, List.getD_cons_succ]
      exact unflatten_lt ds (j % ds.prod) (Nat.mod_lt _ hp) i (by simpa using hi)

theorem flatIdx_unflatten : ∀ (shape : List ℕ) (j : ℕ), j < shape.prod →
    flatIdx shape (unflatten shape j) = j
  | [], j => by
    intro h
    simp only [List.prod_nil, Nat.lt_one_iff] at h
    simp [unflatten, flatIdx, h]
  | d :: ds, j => by
    intro hj
    have hp : 0 < ds.prod := by
      rcases Nat.eq_zero_or_pos ds.prod with h | h
      · rw [List.prod_cons, h, Nat.mul_zero] at hj
        omega
      · exact h
    simp only [unflatten, flatIdx]
    rw [flatIdx_unflatten ds (j % ds.prod) (Nat.mod_lt _ hp)]
    rw [Nat.mul_comm]
    exact Nat.div_add_mod j ds.prod

/-! ### Loop lemmas -/

theorem except_ok_bind {ε α β : Type} (x : α) (g : α → Except ε β) :
    (Except.ok x >>= g) = g x := rfl

theorem except_error_bind {ε α β : Type} (e : ε) (g : α → Except ε β) :
    ((Except.error e : Except ε α) >>= g) = .error e := rfl

theorem incrFold_count {α : Type} (F : α → Option ℕ) :
    ∀ (rows : List α) (t0 : List ℤ),
      (∀ a ∈ rows, ∃ f, F a = some f ∧ f < t0.length) →
      ∃ t, rows.foldlM (incrStep F) t0 = .ok t ∧ t.length = t0.length ∧
        ∀ j, t.getD j 0 =
          t0.getD j 0 + (rows.countP fun a => decide (F a = some j)) := by
  intro rows
  induction rows with
  | nil =>
    intro t0 _
    exact ⟨t0, rfl, rfl, by simp⟩
  | cons a rest ih =>
    intro t0 hF
    obtain ⟨f, hFa, hflt⟩ := hF a (List.mem_cons_self a rest)
    have hF' : ∀ b ∈ rest, ∃ g, F b = some g ∧
        g < (t0.set f (t0.getD f 0 + 1)).length := by
      intro b hb
      obtain ⟨g, h1, h2⟩ := hF b (List.mem_cons_of_mem _ hb)
      exact ⟨g, h1, by rwa [List.length_set]⟩
    obtain ⟨t, hfold, hlen, hcnt⟩ := ih (t0.set f (t0.getD f 0 + 1)) hF'
    refine ⟨t, ?_, ?_, ?_⟩
    · rw [List.foldlM_cons]
      show (incrStep F t0 a >>= fun t' => rest.foldlM (incrStep F) t') = _
      unfold incrStep
      rw [hFa, except_ok_bind]
      exact hfold
    · rw [hlen, List.length_set]
    · intro j
      rw [hcnt j, List.countP_cons]
      by_cases hj : f = j
      · subst hj
        rw [getD_set_self t0 f _ hflt]
        have hd : decide (F a = some f) = true := by simp [hFa]
        rw [hd, if_pos rfl]
        omega
      · rw [getD_set_ne t0 _ hj]
        have hd : decide (F a = some j) = false := by
          simp [hFa]
          intro h
          exact hj h
        rw [hd, if_neg Bool.false_ne_true]
        omega

theorem incrFold_sum {α : Type} (F : α → Option ℕ) :
    ∀ (rows : List α) (t0 : List ℤ),
      (∀ a ∈ rows, ∃ f, F a = some f ∧ f < t0.length) →
      ∃ t, rows.foldlM (incrStep F) t0 = .ok t ∧
        t.sum = t0.sum + rows.length := by
  intro rows
  induction rows with
  | nil =>
    intro t0 _
    exact ⟨t0, rfl, by simp⟩
  | cons a rest ih =>
    intro t0 hF
    obtain ⟨f, hFa, hflt⟩ := hF a (List.mem_cons_self a rest)
    have hF' : ∀ b ∈ rest, ∃ g, F b = some g ∧
        g < (t0.set f (t0.getD f 0 + 1)).length := by
      intro b hb
      obtain ⟨g, h1, h2⟩ := hF b (List.mem_cons_of_mem _ hb)
      exact ⟨g, h1, by rwa [List.length_set]⟩
    obtain ⟨t, hfold, hsum⟩ := ih (t0.set f (t0.getD f 0 + 1)) hF'
    refine ⟨t, ?_, ?_⟩
    · rw [List.foldlM_cons]
      show (incrStep F t0 a >>= fun t' => rest.foldlM (incrStep F) t') = _
      unfold incrStep
      rw [hFa, except_ok_bind]
      exact hfold
    · rw [hsum, sum_set_incr t0 f hflt]
      push_cast [List.length_cons]
      ring

theorem incrFold_ok_length {α : Type} (F : α → Option ℕ) :
    ∀ (rows : List α) (t0 t : List ℤ),
      rows.foldlM (incrStep F) t0 = .ok t → t.length = t0.length := by
  intro rows
  induction rows with
  | nil =>
    intro t0 t h
    simp only [List.foldlM_nil] at h
    cases h
    rfl
  | cons a rest ih =>
    intro t0 t h
    rw [List.foldlM_cons] at h
    replace h :
        (incrStep F t0 a >>= fun t' => rest.foldlM (incrStep F) t') = .ok t := h
    unfold incrStep at h
    cases hF : F a with
    | none =>
      rw [hF, except_error_bind] at h
      exact absurd h (by simp)
    | some f =>
      rw [hF, except_ok_bind] at h
      have := ih _ _ h
      rw [this, List.length_set]

theorem incrFold_nonneg {α : Type} (F : α → Option ℕ) :
    ∀ (rows : List α) (t0 t : List ℤ),
      (∀ x ∈ t0, 0 ≤ x) →
      rows.foldlM (incrStep F) t0 = .ok t → ∀ x ∈ t, 0 ≤ x := by
  intro rows
  induction rows with
  | nil =>
    intro t0 t h0 h
    simp only [List.foldlM_nil] at h
    cases h
    exact h0
  | cons a rest ih =>
    intro t0 t h0 h
    rw [List.foldlM_cons] at h
    replace h :
        (incrStep F t0 a >>= fun t' => rest.foldlM (incrStep F) t') = .ok t := h
    unfold incrStep at h
    cases hF : F a with
    | none =>
      rw [hF, except_error_bind] at h
      exact absurd h (by simp)
    | some f =>
      rw [hF, except_ok_bind] at h
      apply ih _ _ _ h
      intro x hx
      rcases List.mem_or_eq_of_mem_set hx with hmem | hval
      · exact h0 x hmem
      · rw [hval]
        have := getD_nonneg h0 f
        omega

theorem assignFold_last {α : Type} (F : α → Option ℕ) (V : α → ℤ) :
    ∀ (rows : List α) (t0 : List ℤ),
      (∀ a ∈ rows, ∃ f, F a = some f ∧ f < t0.length) →
      ∃ t, rows.foldlM (assignStep F V) t0 = .ok t ∧ t.length = t0.length ∧
        ∀ j, t.getD j 0 =
          ((rows.filter fun a => decide (F a = some j)).getLast?).elim
            (t0.getD j 0) V := by
  intro rows
  induction rows with
  | nil =>
    intro t0 _
    exact ⟨t0, rfl, rfl, by simp⟩
  | cons a rest ih =>
    intro t0 hF
    obtain ⟨f, hFa, hflt⟩ := hF a (List.mem_cons_self a rest)
    have hF' : ∀ b ∈ rest, ∃ g, F b = some g ∧ g < (t0.set f (V a)).length := by
      intro b hb
      obtain ⟨g, h1, h2⟩ := hF b (List.mem_cons_of_mem _ hb)
      exact ⟨g, h1, by rwa [List.length_set]⟩
    obtain ⟨t, hfold, hlen, hlast⟩ := ih (t0.set f (V a)) hF'
    refine ⟨t, ?_, ?_, ?_⟩
    · rw [List.foldlM_cons]
      show (assignStep F V t0 a >>= fun t' => rest.foldlM (assignStep F V) t') = _
      unfold assignStep
      rw [hFa, except_ok_bind]
      exact hfold
    · rw [hlen, List.length_set]
    · intro j
      rw [hlast j, List.filter_cons]
      by_cases hj : f = j
      · subst hj
        have hd : decide (F a = some f) = true := by simp [hFa]
        rw [hd, if_pos rfl]
        cases hflt' : (rest.filter fun b => decide (F b = some f)) with
        | nil =>
          simp only [List.getLast?_nil, List.getLast?_singleton, Option.elim_none,
            Option.elim_some]
          exact getD_set_self t0 f _ hflt
        | cons c cs =>
          rw [List.getLast?_cons_cons]
          cases hg : (c :: cs).getLast? with
          | none => simp at hg
          | some x => rfl
      · have hd : decide (F a = some j) = false := by
          simp [hFa]
          intro h
          exact hj h
        rw [hd, if_neg Bool.false_ne_true]
        rw [getD_set_ne t0 _ hj]

theorem assignFold_nonneg {α : Type} (F : α → Option ℕ) (V : α → ℤ) :
    ∀ (rows : List α) (t0 t : List ℤ),
      (∀ x ∈ t0, 0 ≤ x) → (∀ a ∈ rows, 0 ≤ V a) →
      rows.foldlM (assignStep F V) t0 = .ok t → ∀ x ∈ t, 0 ≤ x := by
  intro rows
  induction rows with
  | nil =>
    intro t0 t h0 _ h
    simp only [List.foldlM_nil] at h
    cases h
    exact h0
  | cons a rest ih =>
    intro t0 t h0 hV h
    rw [List.foldlM_cons] at h
    replace h :
        (assignStep F V t0 a >>= fun t' => rest.foldlM (assignStep F V) t') = .ok t := h
    unfold assignStep at h
    cases hF : F a with
    | none =>
      rw [hF, except_error_bind] at h
      exact absurd h (by simp)
    | some f =>
      rw [hF, except_ok_bind] at h
      apply ih _ _ _ (fun b hb => hV b (List.mem_cons_of_mem _ hb)) h
      intro x hx
      rcases List.mem_or_eq_of_mem_set hx with hmem | hval
      · exact h0 x hmem
      · rw [hval]
        exact hV a (List.mem_cons_self a rest)

theorem assignFold_ok_length {α : Type} (F : α → Option ℕ) (V : α → ℤ) :
    ∀ (rows : List α) (t0 t : List ℤ),
      rows.foldlM (assignStep F V) t0 = .ok t → t.length = t0.length := by
  intro rows
  induction rows with
  | nil =>
    intro t0 t h
    simp only [List.foldlM_nil] at h
    cases h
    rfl
  | cons a rest ih =>
    intro t0 t h
    rw [List.foldlM_cons] at h
    replace h :
        (assignStep F V t0 a >>= fun t' => rest.foldlM (assignStep F V) t') = .ok t := h
    unfold assignStep at h
    cases hF : F a with
    | none =>
      rw [hF, except_error_bind] at h
      exact absurd h (by simp)
    | some f =>
      rw [hF, except_ok_bind] at h
      have := ih _ _ h
      rw [this, List.length_set]

theorem foldlM_flatten_except {α : Type} (step : List ℤ → α → Except String (List ℤ)) :
    ∀ (batches : List (List α)) (t0 : List ℤ),
      batches.foldlM (fun t batch => batch.foldlM step t) t0 =
        batches.flatten.foldlM step t0 := by
  intro batches
  induction batches with
  | nil => intro t0; rfl
  | cons b bs ih =>
    intro t0
    rw [List.foldlM_cons, List.flatten_cons, List.foldlM_append]
    show (List.foldlM step t0 b >>= fun t1 =>
      bs.foldlM (fun t batch => batch.foldlM step t) t1) = _
    cases h : List.foldlM step t0 b with
    | error e => rw [except_error_bind, except_error_bind]
    | ok t1 => rw [except_ok_bind, except_ok_bind, ih]

/-! ### `get_full_index` lemmas -/

theorem option_some_bind {α β : Type} (x : α) (g : α → Option β) :
    (some x >>= g) = g x := rfl

theorem getD_map_lt {α β : Type} (l : List α) (f : α → β) (dA : α) (dB : β) {i : ℕ}
    (h : i < l.length) : (l.map f).getD i dB = f (l.getD i dA) := by
  rw [List.getD_eq_getElem?_getD, List.getD_eq_getElem?_getD,
    List.getElem?_eq_getElem h, List.getElem?_eq_getElem (by simpa using h)]
  simp

theorem gfi_aux (case : List ℚ) (n : ℕ) (hc : case.length = n) :
    ∀ (k : ℕ), k ≤ n → ∀ (idx0 : List ℤ), idx0.length = n →
      ∃ r, ((List.range k).enum.foldlM
          (fun idx p =>
            if p.2 < n ∧ p.1 < case.length then
              some (idx.set p.2 (truncQ (case.getD p.1 0)))
            else none)
          idx0) = some r ∧ r.length = n ∧
        ∀ j, r.getD j 0 = if j < k then truncQ (case.getD j 0) else idx0.getD j 0 := by
  intro k
  induction k with
  | zero =>
    intro _ idx0 h0
    exact ⟨idx0, rfl, h0, by simp⟩
  | succ k ih =>
    intro hk idx0 h0
    obtain ⟨r, hfold, hlen, hget⟩ := ih (Nat.le_of_succ_le hk) idx0 h0
    have hkn : k < n := hk
    refine ⟨r.set k (truncQ (case.getD k 0)), ?_, ?_, ?_⟩
    · rw [List.range_succ, List.enum_append, List.foldlM_append, hfold, List.length_range]
      rw [option_some_bind]
      show List.foldlM _ r [(k, k)] = _
      rw [List.foldlM_cons]
      show ((if k < n ∧ k < case.length then
          some (r.set k (truncQ (case.getD k 0))) else none) >>= _) = _
      rw [if_pos ⟨hkn, by rw [hc]; exact hkn⟩, option_some_bind, List.foldlM_nil]
      rfl
    · rw [List.length_set]
      exact hlen
    · intro j
      by_cases hj : k = j
      · subst hj
        rw [getD_set_self r k _ (by rw [hlen]; exact hkn)]
        rw [if_pos (Nat.lt_succ_self k)]
      · rw [getD_set_ne r _ hj, hget j]
        by_cases hjk : j < k
        · rw [if_pos hjk, if_pos (Nat.lt_succ_of_lt hjk)]
        · rw [if_neg hjk, if_neg (by omega)]

theorem get_full_index_range (case : List ℚ) (n : ℕ) (hc : case.length = n) :
    get_full_index n case (List.range n) = some (case.map truncQ) := by
  obtain ⟨r, hfold, hlen, hget⟩ :=
    gfi_aux case n hc n (le_refl n) (List.replicate n 0) (by simp)
  unfold get_full_index
  rw [hfold]
  congr 1
  apply ext_getD
  · rw [hlen, List.length_map, hc]
  · intro j
    rw [hget j]
    by_cases hj : j < n
    · rw [if_pos hj]
      exact (getD_map_lt case truncQ 0 0 (by rw [hc]; exact hj)).symm
    · rw [if_neg hj]
      rw [List.getD_eq_getElem?_getD, List.getElem?_eq_none (by simp; omega)]
      rw [List.getD_eq_getElem?_getD, List.getElem?_eq_none (by simp [hc]; omega)]

theorem intCast_truncQ_of_den_eq_one {q : ℚ} (h : q.den = 1) :
    ((truncQ q : ℤ) : ℚ) = q := by
  unfold truncQ
  rw [h]
  simp only [Nat.cast_one, Int.tdiv_one]
  exact intCast_num_of_den_eq_one h

/-- Invariants of the accumulation loop of `gen_case_form_to_contingency`,
for a resolved axis order. -/
theorem gen_fold_ok_invariants (cs : NPCases) (shape : List ℕ) (a : List ℕ)
    {t : List ℤ}
    (h : (match cs with
      | NPCases.d3 batches =>
        List.foldlM
          (fun (t : List ℤ) (batch : List (List ℚ)) =>
            List.foldlM
              (incrStep fun case => (get_full_index shape.length case a).bind (ravel shape))
              t batch)
          (List.replicate shape.prod 0) batches
      | NPCases.d2 rows =>
        List.foldlM
          (incrStep fun case => (get_full_index shape.length case a).bind (ravel shape))
          (List.replicate shape.prod 0) rows) = .ok t) :
    t.length = shape.prod ∧ ∀ x ∈ t, 0 ≤ x := by
  cases cs with
  | d3 batches =>
    replace h :
        List.foldlM
          (fun (t : List ℤ) (batch : List (List ℚ)) =>
            List.foldlM
              (incrStep fun case => (get_full_index shape.length case a).bind (ravel shape))
              t batch)
          (List.replicate shape.prod 0) batches = .ok t := h
    rw [foldlM_flatten_except] at h
    refine ⟨?_, incrFold_nonneg _ _ _ _ (by simp) h⟩
    rw [incrFold_ok_length _ _ _ _ h]
    simp
  | d2 rows =>
    replace h :
        List.foldlM
          (incrStep fun case => (get_full_index shape.length case a).bind (ravel shape))
          (List.replicate shape.prod 0) rows = .ok t := h
    refine ⟨?_, incrFold_nonneg _ _ _ _ (by simp) h⟩
    rw [incrFold_ok_length _ _ _ _ h]
    simp

/-! ### Claim theorems -/

/-- C1: the claim says `_process_case_form` raises an out-of-range failure on
a raw category value of 0 before incrementing any cell, never silently
indexing position -1.  The code does the opposite: with dimension `(2,)` and
the single case row `[0]`, the subtraction produces index `-1`, numpy
silently wraps it to the *last* cell of the axis, and the call succeeds with
the table `[0, 1]` — the wrong cell was incremented and no `IndexError` was
raised.  This contradicts the spec's stated contract ("never silently clip,
wrap, or drop invalid rows"), so it is a bug of the code. -/
theorem claim_C1_case_form_zero_wraps :
    process_case_form [[(0 : ℚ)]] [2] = .ok [0, 1] := by decide

/-- C5: `_process_table_form` fails on a shape mismatch (even with equal
element counts) with a message interpolating both the actual and the
expected shape, and on shape match returns the same data coerced to integer
counts, unchanged whenever the cells are integral. -/
theorem claim_C5_table_form_shape_contract (tab : NDTable) (shape : List ℕ) :
    (tab.shape ≠ shape →
      ∃ pre mid : String,
        process_table_form tab shape =
          .error (pre ++ toString tab.shape ++ mid ++ toString shape)) ∧
    (tab.shape = shape →
      process_table_form tab shape = .ok (tab.data.map truncQ) ∧
      ((∀ q ∈ tab.data, q.den = 1) →
        ratsOfInts (tab.data.map truncQ) = tab.data)) := by
  constructor
  · intro hne
    refine ⟨"Table shape ", " does not match specified shape ", ?_⟩
    unfold process_table_form
    rw [if_neg hne]
  · intro heq
    constructor
    · unfold process_table_form
      rw [if_pos heq]
    · intro hden
      unfold ratsOfInts
      rw [List.map_map]
      have : ∀ q ∈ tab.data, ((fun z => ((z : ℤ) : ℚ)) ∘ truncQ) q = id q := by
        intro q hq
        simp only [Function.comp_apply, id_eq]
        exact intCast_truncQ_of_den_eq_one (hden q hq)
      rw [List.map_congr_left this, List.map_id]

/-- Witness for C5 at concrete inputs: a `(2,3)`-shaped table against
declared dimension `(3,2)` fails with both shapes in the message, and a
matching table passes through with its integer contents unchanged. -/
theorem claim_C5_witness :
    (∃ pre mid : String,
      process_table_form ⟨[2, 3], [0, 0, 0, 0, 0, 0]⟩ [3, 2] =
        .error (pre ++ toString ([2, 3] : List ℕ) ++ mid ++
          toString ([3, 2] : List ℕ))) ∧
    process_table_form ⟨[1], [5]⟩ [1] = .ok (([5] : List ℚ).map truncQ) ∧
    ratsOfInts (([5] : List ℚ).map truncQ) = [5] :=
  ⟨(claim_C5_table_form_shape_contract ⟨[2, 3], [0, 0, 0, 0, 0, 0]⟩ [3, 2]).1 (by decide),
   ((claim_C5_table_form_shape_contract ⟨[1], [5]⟩ [1]).2 rfl).1,
   ((claim_C5_table_form_shape_contract ⟨[1], [5]⟩ [1]).2 rfl).2 (by decide)⟩

/-- C6 counterexample: with `axis_order` omitted, a 3D stack is *not*
equivalent to the concatenation of its batches: for the stack `[[[0],[1]]]`
(one batch, two rows, one column) `cases.shape[1]` is the rows-per-batch
count 2, so the defaulted axis order `[0, 1]` indexes a second axis that the
one-dimensional target shape `(2,)` does not have, and the call fails with
an `IndexError`, while the concatenated 2D rows produce `[1, 1]`. -/
theorem claim_C6_counterexample :
    gen_case_form_to_contingency (.d3 [[[0], [1]]]) [2] none = .error "IndexError" ∧
    gen_case_form_to_contingency (.d2 ([[[(0 : ℚ)], [1]]] : List (List (List ℚ))).flatten)
      [2] none = .ok [1, 1] ∧
    gen_case_form_to_contingency (.d3 [[[0], [1]]]) [2] none ≠
      gen_case_form_to_contingency (.d2 ([[[(0 : ℚ)], [1]]] : List (List (List ℚ))).flatten)
        [2] none :=
  ⟨by decide, by decide, by decide⟩

/-- C6 (amended): with `axis_order` supplied, `gen_case_form_to_contingency`
on a 3D stack of batches returns exactly what it returns on the 2D
concatenation of all rows of all batches (batch axis iterated outer, row
axis inner).  With `axis_order` omitted the equivalence fails, because for a
3D stack `cases.shape[1]` is the rows-per-batch count rather than the column
count. -/
theorem claim_C6_amended (batches : List (List (List ℚ))) (shape : List ℕ)
    (ao : List ℕ) :
    gen_case_form_to_contingency (.d3 batches) shape (some ao) =
      gen_case_form_to_contingency (.d2 batches.flatten) shape (some ao) :=
  foldlM_flatten_except
    (incrStep fun case => (get_full_index shape.length case ao).bind (ravel shape))
    batches (List.replicate shape.prod 0)

/-- C9 counterexample: the claim says every table returned by a converter
has only non-negative cells; `_process_table_form` returns a negative cell
untouched. -/
theorem claim_C9_counterexample :
    process_table_form ⟨[1], [-1]⟩ [1] = .ok [-1] ∧ ¬ ((0 : ℤ) ≤ -1) :=
  ⟨by decide, by decide⟩

/-- C9 (amended): every table returned by a converter is an integer array
with exactly `Dimension.prod` cells (the flattened form of shape
`Dimension`); the cells are non-negative unconditionally for
`_process_case_form` and `gen_case_form_to_contingency`, and for
`_process_frequency_form` (resp. `_process_table_form`) whenever the input
frequencies (resp. input cells) are non-negative — without those
hypotheses a negative frequency or table cell is passed through. -/
theorem claim_C9_amended :
    (∀ (data : List (List ℚ)) (shape : List ℕ) (t : List ℤ),
        process_case_form data shape = .ok t →
        t.length = shape.prod ∧ ∀ x ∈ t, 0 ≤ x) ∧
    (∀ (data : List (List ℚ)) (shape : List ℕ) (t : List ℤ),
        (∀ r ∈ data, 0 ≤ r.getD shape.length 0) →
        process_frequency_form data shape = .ok t →
        t.length = shape.prod ∧ ∀ x ∈ t, 0 ≤ x) ∧
    (∀ (tab : NDTable) (shape : List ℕ) (t : List ℤ),
        (∀ q ∈ tab.data, 0 ≤ q) → tab.data.length = tab.shape.prod →
        process_table_form tab shape = .ok t →
        t.length = shape.prod ∧ ∀ x ∈ t, 0 ≤ x) ∧
    (∀ (cs : NPCases) (shape : List ℕ) (ao? : Option (List ℕ)) (t : List ℤ),
        gen_case_form_to_contingency cs shape ao? = .ok t →
        t.length = shape.prod ∧ ∀ x ∈ t, 0 ≤ x) := by
  refine ⟨?_, ?_, ?_, ?_⟩
  · intro data shape t h
    unfold process_case_form at h
    by_cases hall : (data.all fun r => r.length == shape.length) = true
    · rw [if_pos hall] at h
      refine ⟨?_, incrFold_nonneg _ _ _ _ (by simp) h⟩
      rw [incrFold_ok_length _ _ _ _ h]
      simp
    · rw [if_neg hall] at h
      exact absurd h (by simp)
  · intro data shape t hfreq h
    unfold process_frequency_form at h
    by_cases hall : (data.all fun r => r.length == shape.length + 1) = true
    · rw [if_pos hall] at h
      refine ⟨?_, ?_⟩
      · rw [assignFold_ok_length _ _ _ _ _ h]
        simp
      · apply assignFold_nonneg _ _ _ _ _ (by simp) _ h
        intro r hr
        exact truncQ_nonneg (hfreq r hr)
    · rw [if_neg hall] at h
      exact absurd h (by simp)
  · intro tab shape t hnn hlen h
    unfold process_table_form at h
    by_cases hsh : tab.shape = shape
    · rw [if_pos hsh] at h
      cases h
      constructor
      · rw [List.length_map, hlen, hsh]
      · intro x hx
        obtain ⟨q, hq, hval⟩ := List.mem_map.mp hx
        rw [← hval]
        exact truncQ_nonneg (hnn q hq)
    · rw [if_neg hsh] at h
      exact absurd h (by simp)
  · intro cs shape ao? t h
    cases ao? with
    | some a =>
      exact gen_fold_ok_invariants cs shape a h
    | none =>
      cases hs : npShape1 cs with
      | some n =>
        unfold gen_case_form_to_contingency at h
        rw [hs] at h
        exact gen_fold_ok_invariants cs shape (List.range n) h
      | none =>
        unfold gen_case_form_to_contingency at h
        rw [hs] at h
        replace h : (Except.error "IndexError: tuple index out of range" :
          Except String (List ℤ)) = Except.ok t := h
        exact absurd h (by simp)

/-- Witness for C9 at concrete inputs: each converter, applied to a small
valid input, yields a table of the declared size with non-negative cells. -/
theorem claim_C9_witness :
    (([1] : List ℤ).length = ([1] : List ℕ).prod ∧ ∀ x ∈ ([1] : List ℤ), 0 ≤ x) ∧
    (([3] : List ℤ).length = ([1] : List ℕ).prod ∧ ∀ x ∈ ([3] : List ℤ), 0 ≤ x) ∧
    (([2] : List ℤ).length = ([1] : List ℕ).prod ∧ ∀ x ∈ ([2] : List ℤ), 0 ≤ x) ∧
    (([1, 0] : List ℤ).length = ([2] : List ℕ).prod ∧ ∀ x ∈ ([1, 0] : List ℤ), 0 ≤ x) :=
  ⟨claim_C9_amended.1 [[1]] [1] [1] (by decide),
   claim_C9_amended.2.1 [[1, 3]] [1] [3] (by decide) (by decide),
   claim_C9_amended.2.2.1 ⟨[1], [2]⟩ [1] [2] (by decide) (by decide) (by decide),
   claim_C9_amended.2.2.2 (.d2 [[0]]) [2] none [1, 0] (by decide)⟩

/-! ### Valid case-form rows -/

theorem getD_replicate_zero (n j : ℕ) : (List.replicate n (0 : ℤ)).getD j 0 = 0 := by
  rw [List.getD_eq_getElem?_getD]
  rcases Nat.lt_or_ge j n with hj | hj
  · rw [List.getElem?_eq_getElem (by simpa using hj)]
    simp
  · rw [List.getElem?_eq_none (by simpa using hj)]
    rfl

theorem caseTuple_getD {r : List ℚ} {i : ℕ} (h : i < r.length) :
    (caseTuple r).getD i 0 = truncQ (r.getD i 0 - 1) :=
  getD_map_lt r _ 0 0 h

theorem validCase_flat {shape : List ℕ} {r : List ℚ} (h : validCaseRow shape r) :
    (caseTuple r).length = shape.length ∧
    ∀ i < shape.length, 0 ≤ (caseTuple r).getD i 0 ∧
      (caseTuple r).getD i 0 < (shape.getD i 0 : ℤ) := by
  obtain ⟨hl, hb⟩ := h
  refine ⟨by simp [caseTuple, hl], ?_⟩
  intro i hi
  obtain ⟨hden, h1, h2⟩ := hb i hi
  rw [caseTuple_getD (by rw [hl]; exact hi)]
  rw [truncQ_sub_one_of_den_eq_one hden]
  have hq : ((r.getD i 0).num : ℚ) = r.getD i 0 := intCast_num_of_den_eq_one hden
  have hlo : (1 : ℤ) ≤ (r.getD i 0).num := by
    have : (1 : ℚ) ≤ ((r.getD i 0).num : ℚ) := by rw [hq]; exact h1
    exact_mod_cast this
  have hhi : (r.getD i 0).num ≤ (shape.getD i 0 : ℤ) := by
    have : ((r.getD i 0).num : ℚ) ≤ ((shape.getD i 0 : ℕ) : ℚ) := by rw [hq]; exact h2
    exact_mod_cast this
  omega

theorem validCase_mem_nonneg {shape : List ℕ} {r : List ℚ} (h : validCaseRow shape r) :
    ∀ x ∈ caseTuple r, 0 ≤ x := by
  intro x hx
  obtain ⟨i, hi, hval⟩ := List.mem_iff_getElem.mp hx
  have hlen : (caseTuple r).length = shape.length := (validCase_flat h).1
  have hgd : (caseTuple r).getD i 0 = x := by
    rw [List.getD_eq_getElem?_getD, List.getElem?_eq_getElem hi]
    simpa using hval
  have := ((validCase_flat h).2 i (by rw [← hlen]; exact hi)).1
  rw [hgd] at this
  exact this

theorem validCase_toNat_bounds {shape : List ℕ} {r : List ℚ} (h : validCaseRow shape r) :
    ((caseTuple r).map Int.toNat).length = shape.length ∧
    ∀ i < shape.length, ((caseTuple r).map Int.toNat).getD i 0 < shape.getD i 0 := by
  refine ⟨by simp [(validCase_flat h).1], ?_⟩
  intro i hi
  rw [getD_map_lt _ Int.toNat 0 0 (by rw [(validCase_flat h).1]; exact hi)]
  have := (validCase_flat h).2 i hi
  omega

theorem validCase_ravel {shape : List ℕ} {r : List ℚ} (h : validCaseRow shape r) :
    ravel shape (caseTuple r) = some (flatIdx shape ((caseTuple r).map Int.toNat)) :=
  ravel_inBounds shape (caseTuple r) (validCase_flat h).1 (validCase_flat h).2

theorem validCase_flatIdx_lt {shape : List ℕ} {r : List ℚ} (h : validCaseRow shape r) :
    flatIdx shape ((caseTuple r).map Int.toNat) < shape.prod :=
  flatIdx_lt shape _ (validCase_toNat_bounds h).1 (validCase_toNat_bounds h).2

theorem map_natCast_toNat {l : List ℤ} (h : ∀ x ∈ l, 0 ≤ x) :
    (l.map Int.toNat).map (fun k : ℕ => (k : ℤ)) = l := by
  rw [List.map_map]
  have hid : ∀ x ∈ l, ((fun k : ℕ => (k : ℤ)) ∘ Int.toNat) x = id x := by
    intro x hx
    simp only [Function.comp_apply, id_eq]
    exact Int.toNat_of_nonneg (h x hx)
  rw [List.map_congr_left hid, List.map_id]

theorem map_toNat_natCast (l : List ℕ) :
    (l.map (fun k : ℕ => (k : ℤ))).map Int.toNat = l := by
  rw [List.map_map]
  have hid : ∀ x ∈ l, (Int.toNat ∘ fun k : ℕ => (k : ℤ)) x = id x := by
    intro x _
    simp [Int.toNat_natCast]
  rw [List.map_congr_left hid, List.map_id]

theorem validCase_addresses_iff {shape : List ℕ} {r : List ℚ} (h : validCaseRow shape r)
    {ix : List ℕ} (hixl : ix.length = shape.length)
    (hixb : ∀ i < shape.length, ix.getD i 0 < shape.getD i 0) :
    ravel shape (caseTuple r) = some (flatIdx shape ix) ↔
      caseTuple r = ix.map (fun k : ℕ => (k : ℤ)) := by
  rw [validCase_ravel h]
  constructor
  · intro he
    have hflat : flatIdx shape ((caseTuple r).map Int.toNat) = flatIdx shape ix :=
      Option.some.inj he
    have heq := flatIdx_inj shape _ _ (validCase_toNat_bounds h).1 hixl
      (validCase_toNat_bounds h).2 hixb hflat
    rw [← map_natCast_toNat (validCase_mem_nonneg h), heq]
  · intro he
    rw [he, map_toNat_natCast]

/-- C3: for every valid case-form input (each row a tuple of integral
1-based indices within the declared bounds), `_process_case_form` succeeds,
the total count of the resulting table equals the number of input rows, and
the cell addressed by each in-bounds index tuple equals the number of rows
whose (0-based, truncated) index tuple addresses that cell. -/
theorem claim_C3_case_form_conservation (data : List (List ℚ)) (shape : List ℕ)
    (hv : ∀ r ∈ data, validCaseRow shape r) :
    ∃ t, process_case_form data shape = .ok t ∧
      t.sum = (data.length : ℤ) ∧
      ∀ ix : List ℕ, ix.length = shape.length →
        (∀ i < shape.length, ix.getD i 0 < shape.getD i 0) →
        t.getD (flatIdx shape ix) 0 =
          ((data.countP fun r =>
            decide (caseTuple r = ix.map (fun k : ℕ => (k : ℤ)))) : ℤ) := by
  have hall : (data.all fun r => r.length == shape.length) = true := by
    rw [List.all_eq_true]
    intro r hr
    exact beq_iff_eq.mpr (hv r hr).1
  have hFadj : ∀ a ∈ data.map (fun r => r.map fun q => q - 1),
      ∃ f, (fun case => ravel shape (case.map truncQ)) a = some f ∧
        f < (List.replicate shape.prod (0 : ℤ)).length := by
    intro a ha
    obtain ⟨r, hr, rfl⟩ := List.mem_map.mp ha
    refine ⟨flatIdx shape ((caseTuple r).map Int.toNat), ?_, ?_⟩
    · show ravel shape ((r.map fun q => q - 1).map truncQ) = _
      rw [List.map_map]
      exact validCase_ravel (hv r hr)
    · rw [List.length_replicate]
      exact validCase_flatIdx_lt (hv r hr)
  obtain ⟨t, hfold, hlen, hcnt⟩ :=
    incrFold_count (fun case => ravel shape (case.map truncQ))
      (data.map fun r => r.map fun q => q - 1) (List.replicate shape.prod 0) hFadj
  obtain ⟨t2, hfold2, hsum2⟩ :=
    incrFold_sum (fun case => ravel shape (case.map truncQ))
      (data.map fun r => r.map fun q => q - 1) (List.replicate shape.prod 0) hFadj
  rw [hfold] at hfold2
  cases hfold2
  refine ⟨t, ?_, ?_, ?_⟩
  · unfold process_case_form
    rw [if_pos hall]
    exact hfold
  · simpa using hsum2
  · intro ix hixl hixb
    rw [hcnt (flatIdx shape ix), List.countP_map]
    have hcong : ∀ r ∈ data,
        ((fun a => decide ((fun case => ravel shape (case.map truncQ)) a =
            some (flatIdx shape ix))) ∘ (fun r => r.map fun q => q - 1)) r = true ↔
        (fun r => decide (caseTuple r = ix.map (fun k : ℕ => (k : ℤ)))) r = true := by
      intro r hr
      simp only [Function.comp_apply, decide_eq_true_eq]
      rw [List.map_map]
      exact validCase_addresses_iff (hv r hr) hixl hixb
    rw [List.countP_congr hcong, getD_replicate_zero]
    ring

/-- Witness for C3: three case rows over dimension `(2, 3)`, two of them
identical; the table sums to 3 and the duplicated tuple's cell counts 2. -/
theorem claim_C3_witness :
    ∃ t, process_case_form [[(1 : ℚ), 1], [1, 1], [2, 1]] [2, 3] = .ok t ∧
      t.sum = (([[(1 : ℚ), 1], [1, 1], [2, 1]] : List (List ℚ)).length : ℤ) ∧
      ∀ ix : List ℕ, ix.length = ([2, 3] : List ℕ).length →
        (∀ i < ([2, 3] : List ℕ).length, ix.getD i 0 < ([2, 3] : List ℕ).getD i 0) →
        t.getD (flatIdx [2, 3] ix) 0 =
          ((([[(1 : ℚ), 1], [1, 1], [2, 1]] : List (List ℚ)).countP fun r =>
            decide (caseTuple r = ix.map (fun k : ℕ => (k : ℤ)))) : ℤ) :=
  claim_C3_case_form_conservation [[(1 : ℚ), 1], [1, 1], [2, 1]] [2, 3] (by decide)

/-- C7: for valid case-form input, permuting the rows does not change the
resulting table — the accumulation is a commutative counting. -/
theorem claim_C7_row_order_invariance (data data2 : List (List ℚ)) (shape : List ℕ)
    (hperm : data.Perm data2) (hv : ∀ r ∈ data, validCaseRow shape r) :
    process_case_form data shape = process_case_form data2 shape := by
  have hv2 : ∀ r ∈ data2, validCaseRow shape r := fun r hr => hv r (hperm.mem_iff.mpr hr)
  have hall : (data.all fun r => r.length == shape.length) = true := by
    rw [List.all_eq_true]
    intro r hr
    exact beq_iff_eq.mpr (hv r hr).1
  have hall2 : (data2.all fun r => r.length == shape.length) = true := by
    rw [List.all_eq_true]
    intro r hr
    exact beq_iff_eq.mpr (hv2 r hr).1
  have hFadj : ∀ (l : List (List ℚ)), (∀ r ∈ l, validCaseRow shape r) →
      ∀ a ∈ l.map (fun r => r.map fun q => q - 1),
      ∃ f, (fun case => ravel shape (case.map truncQ)) a = some f ∧
        f < (List.replicate shape.prod (0 : ℤ)).length := by
    intro l hvl a ha
    obtain ⟨r, hr, rfl⟩ := List.mem_map.mp ha
    refine ⟨flatIdx shape ((caseTuple r).map Int.toNat), ?_, ?_⟩
    · show ravel shape ((r.map fun q => q - 1).map truncQ) = _
      rw [List.map_map]
      exact validCase_ravel (hvl r hr)
    · rw [List.length_replicate]
      exact validCase_flatIdx_lt (hvl r hr)
  obtain ⟨t, hfold, hlen, hcnt⟩ :=
    incrFold_count (fun case => ravel shape (case.map truncQ))
      (data.map fun r => r.map fun q => q - 1) (List.replicate shape.prod 0)
      (hFadj data hv)
  obtain ⟨t2, hfold2, hlen2, hcnt2⟩ :=
    incrFold_count (fun case => ravel shape (case.map truncQ))
      (data2.map fun r => r.map fun q => q - 1) (List.replicate shape.prod 0)
      (hFadj data2 hv2)
  have hpermadj : (data.map fun r => r.map fun q => q - 1).Perm
      (data2.map fun r => r.map fun q => q - 1) := hperm.map _
  unfold process_case_form
  rw [if_pos hall, if_pos hall2, hfold, hfold2]
  congr 1
  apply ext_getD (by rw [hlen, hlen2])
  intro j
  rw [hcnt j, hcnt2 j]
  congr 1
  exact_mod_cast hpermadj.countP_eq _

/-- Witness for C7: swapping two case rows yields the same table. -/
theorem claim_C7_witness :
    process_case_form [[(1 : ℚ)], [2]] [2] = process_case_form [[(2 : ℚ)], [1]] [2] :=
  claim_C7_row_order_invariance [[(1 : ℚ)], [2]] [[(2 : ℚ)], [1]] [2]
    (List.Perm.swap _ _ _) (by decide)

/-! ### Frequency form -/

theorem getD_take_lt {α : Type} (l : List α) (n i : ℕ) (d : α) (hi : i < n)
    (h2 : i < l.length) : (l.take n).getD i d = l.getD i d := by
  rw [List.getD_eq_getElem?_getD, List.getD_eq_getElem?_getD,
    List.getElem?_eq_getElem (show i < (l.take n).length by
      rw [List.length_take]
      omega),
    List.getElem?_eq_getElem h2]
  simp [List.getElem_take]

theorem validFreq_take {shape : List ℕ} {r : List ℚ} (h : validFreqRow shape r) :
    validCaseRow shape (r.take shape.length) := by
  obtain ⟨hl, hb⟩ := h
  constructor
  · rw [List.length_take, hl]
    omega
  · intro i hi
    rw [getD_take_lt r shape.length i 0 hi (by omega)]
    exact hb i hi

/-- C4: for every valid frequency-form input, `_process_frequency_form`
*assigns* each addressed cell the row's truncated frequency instead of
accumulating: an in-bounds cell holds the truncated frequency of the *last*
row addressing it (so duplicate index tuples overwrite, the later row
winning), and a cell addressed by no row stays zero. -/
theorem claim_C4_frequency_overwrite (data : List (List ℚ)) (shape : List ℕ)
    (hv : ∀ r ∈ data, validFreqRow shape r) :
    ∃ t, process_frequency_form data shape = .ok t ∧
      ∀ ix : List ℕ, ix.length = shape.length →
        (∀ i < shape.length, ix.getD i 0 < shape.getD i 0) →
        t.getD (flatIdx shape ix) 0 =
          ((data.filter fun r =>
            decide (caseTuple (r.take shape.length) =
              ix.map (fun k : ℕ => (k : ℤ)))).getLast?).elim
            0 (fun r => truncQ (r.getD shape.length 0)) := by
  have hall : (data.all fun r => r.length == shape.length + 1) = true := by
    rw [List.all_eq_true]
    intro r hr
    exact beq_iff_eq.mpr (hv r hr).1
  have hF : ∀ r ∈ data,
      ∃ f, (fun r => ravel shape (((r.take shape.length).map fun q => q - 1).map truncQ)) r
          = some f ∧
        f < (List.replicate shape.prod (0 : ℤ)).length := by
    intro r hr
    refine ⟨flatIdx shape ((caseTuple (r.take shape.length)).map Int.toNat), ?_, ?_⟩
    · show ravel shape (((r.take shape.length).map fun q => q - 1).map truncQ) = _
      rw [List.map_map]
      exact validCase_ravel (validFreq_take (hv r hr))
    · rw [List.length_replicate]
      exact validCase_flatIdx_lt (validFreq_take (hv r hr))
  obtain ⟨t, hfold, hlen, hlast⟩ :=
    assignFold_last
      (fun r => ravel shape (((r.take shape.length).map fun q => q - 1).map truncQ))
      (fun r => truncQ (r.getD shape.length 0)) data (List.replicate shape.prod 0) hF
  refine ⟨t, ?_, ?_⟩
  · unfold process_frequency_form
    rw [if_pos hall]
    exact hfold
  · intro ix hixl hixb
    rw [hlast (flatIdx shape ix), getD_replicate_zero]
    have hcong : ∀ r ∈ data,
        (fun r => decide ((fun r =>
            ravel shape (((r.take shape.length).map fun q => q - 1).map truncQ)) r =
          some (flatIdx shape ix))) r =
        (fun r => decide (caseTuple (r.take shape.length) =
          ix.map (fun k : ℕ => (k : ℤ)))) r := by
      intro r hr
      apply decide_eq_decide.mpr
      show ravel shape (((r.take shape.length).map fun q => q - 1).map truncQ) =
          some (flatIdx shape ix) ↔ _
      rw [List.map_map]
      exact validCase_addresses_iff (validFreq_take (hv r hr)) hixl hixb
    rw [List.filter_congr hcong]

/-- Witness for C4: two frequency rows addressing the same cell with
frequencies 5 and 7; the cell holds 7 (the later row), the other cell 0. -/
theorem claim_C4_witness :
    ∃ t, process_frequency_form [[(1 : ℚ), 5], [1, 7]] [2] = .ok t ∧
      ∀ ix : List ℕ, ix.length = ([2] : List ℕ).length →
        (∀ i < ([2] : List ℕ).length, ix.getD i 0 < ([2] : List ℕ).getD i 0) →
        t.getD (flatIdx [2] ix) 0 =
          ((([[(1 : ℚ), 5], [1, 7]] : List (List ℚ)).filter fun r =>
            decide (caseTuple (r.take ([2] : List ℕ).length) =
              ix.map (fun k : ℕ => (k : ℤ)))).getLast?).elim
            0 (fun r => truncQ (r.getD ([2] : List ℕ).length 0)) :=
  claim_C4_frequency_overwrite [[(1 : ℚ), 5], [1, 7]] [2] (by decide)

/-! ### Round trip -/

theorem map_truncQ_natCasts (l : List ℕ) :
    (l.map fun k : ℕ => (k : ℚ)).map truncQ = l.map fun k : ℕ => (k : ℤ) := by
  rw [List.map_map]
  apply List.map_congr_left
  intro a _
  simp only [Function.comp_apply]
  exact truncQ_natCast a

theorem option_bind_some {α β : Type} (x : α) (g : α → Option β) :
    (Option.some x).bind g = g x := rfl

/-- The full-index-then-ravel composition of `gen_case_form_to_contingency`
with the default axis order maps the (cast) multi-index of flat offset `j`
back to `j`. -/
theorem gen_F_unflatten (shape : List ℕ) (j : ℕ) (hj : j < shape.prod) :
    (get_full_index shape.length ((unflatten shape j).map fun k : ℕ => (k : ℚ))
      (List.range shape.length)).bind (ravel shape) = some j := by
  rw [get_full_index_range _ _ (by rw [List.length_map, unflatten_length])]
  rw [option_bind_some, map_truncQ_natCasts]
  have hb : ∀ i < shape.length,
      0 ≤ ((unflatten shape j).map fun k : ℕ => (k : ℤ)).getD i 0 ∧
      ((unflatten shape j).map fun k : ℕ => (k : ℤ)).getD i 0 < (shape.getD i 0 : ℤ) := by
    intro i hi
    rw [getD_map_lt _ _ 0 0 (by rw [unflatten_length]; exact hi)]
    have hu := unflatten_lt shape j hj i hi
    exact ⟨Int.natCast_nonneg _, by exact_mod_cast hu⟩
  rw [ravel_inBounds shape _ (by rw [List.length_map, unflatten_length]) hb]
  rw [map_toNat_natCast, flatIdx_unflatten shape j hj]

theorem sum_if_single (js : List ℕ) (j : ℕ) (v : ℕ → ℕ) (hnd : js.Nodup) :
    (js.map fun i => if i = j then v i else 0).sum = if j ∈ js then v j else 0 := by
  induction js with
  | nil => simp
  | cons a rest ih =>
    rw [List.map_cons, List.sum_cons]
    obtain ⟨hna, hnd'⟩ := List.nodup_cons.mp hnd
    by_cases ha : a = j
    · subst ha
      rw [if_pos rfl, if_pos (List.mem_cons_self a rest), ih hnd']
      rw [if_neg (fun hmem => hna hmem)]
      omega
    · rw [if_neg ha, ih hnd']
      by_cases hm : j ∈ rest
      · rw [if_pos hm, if_pos (List.mem_cons_of_mem _ hm)]
        omega
      · rw [if_neg hm, if_neg (by
          intro hc
          rcases List.mem_cons.mp hc with h | h
          · exact ha h.symm
          · exact hm h)]

/-- C2 counterexample: for the all-zero one-cell table the emitted case list
is empty, `np.array([])` is one-dimensional, and `cases.shape[1]` raises
`IndexError` instead of rebuilding the zero table — the round trip fails on
any all-zero table. -/
theorem claim_C2_counterexample :
    gen_case_form_to_contingency
      (.d2 ((gen_contingency_to_case_form ⟨[1], [0]⟩).map
        fun r => r.map fun k : ℕ => (k : ℚ)))
      [1] none = .error "IndexError: tuple index out of range" ∧
    gen_case_form_to_contingency
      (.d2 ((gen_contingency_to_case_form ⟨[1], [0]⟩).map
        fun r => r.map fun k : ℕ => (k : ℚ)))
      [1] none ≠ .ok (IntTable.mk [1] [0]).data :=
  ⟨by decide, by decide⟩

/-- C2 (amended): for every table of non-negative integer counts with **at
least one non-zero cell**, feeding `gen_contingency_to_case_form`'s output
(as a float array) back through `gen_case_form_to_contingency` with the
table's own shape and no axis order reproduces the table exactly.  The
non-zero-cell hypothesis is forced: an all-zero table yields an empty,
one-dimensional case array whose `shape[1]` raises `IndexError`. -/
theorem claim_C2_roundtrip_amended (t : IntTable)
    (hlen : t.data.length = t.shape.prod)
    (hnn : ∀ x ∈ t.data, 0 ≤ x)
    (hpos : ∃ x ∈ t.data, x ≠ 0) :
    gen_case_form_to_contingency
      (.d2 ((gen_contingency_to_case_form t).map fun r => r.map fun k : ℕ => (k : ℚ)))
      t.shape none = .ok t.data := by
  obtain ⟨x0, hx0mem, hx0ne⟩ := hpos
  obtain ⟨j0, hj0lt, hj0val⟩ := List.mem_iff_getElem.mp hx0mem
  have hj0P : j0 < t.shape.prod := by rw [← hlen]; exact hj0lt
  have hcj0 : t.data.getD j0 0 = x0 := by
    rw [List.getD_eq_getElem?_getD, List.getElem?_eq_getElem hj0lt]
    simpa using hj0val
  have hx0pos : 0 < x0 := lt_of_le_of_ne (hnn x0 hx0mem) (Ne.symm hx0ne)
  have hj0js : j0 ∈ (List.range t.shape.prod).filter
      fun j => decide (t.data.getD j 0 ≠ 0) := by
    rw [List.mem_filter]
    exact ⟨List.mem_range.mpr hj0P, decide_eq_true (by rw [hcj0]; exact hx0ne)⟩
  have hmemL : unflatten t.shape j0 ∈ gen_contingency_to_case_form t := by
    unfold gen_contingency_to_case_form
    rw [List.mem_flatMap]
    exact ⟨j0, hj0js, List.mem_replicate.mpr ⟨by rw [hcj0]; omega, rfl⟩⟩
  have hmemR : (unflatten t.shape j0).map (fun k : ℕ => (k : ℚ)) ∈
      (gen_contingency_to_case_form t).map (fun r => r.map fun k : ℕ => (k : ℚ)) :=
    List.mem_map_of_mem _ hmemL
  have hRne : (gen_contingency_to_case_form t).map
      (fun r => r.map fun k : ℕ => (k : ℚ)) ≠ [] :=
    List.ne_nil_of_mem hmemR
  have hrowlen : ∀ row ∈ (gen_contingency_to_case_form t).map
      (fun r => r.map fun k : ℕ => (k : ℚ)), row.length = t.shape.length := by
    intro row hrow
    obtain ⟨r, hrL, rfl⟩ := List.mem_map.mp hrow
    unfold gen_contingency_to_case_form at hrL
    rw [List.mem_flatMap] at hrL
    obtain ⟨j, _, hrep⟩ := hrL
    rw [List.eq_of_mem_replicate hrep, List.length_map, unflatten_length]
  have hs : npShape1 (.d2 ((gen_contingency_to_case_form t).map
      (fun r => r.map fun k : ℕ => (k : ℚ)))) = some t.shape.length := by
    obtain ⟨hd, tl, hR⟩ := List.exists_cons_of_ne_nil hRne
    rw [hR]
    show some hd.length = some t.shape.length
    rw [hrowlen hd (by rw [hR]; exact List.mem_cons_self hd tl)]
  have hF : ∀ row ∈ (gen_contingency_to_case_form t).map
      (fun r => r.map fun k : ℕ => (k : ℚ)),
      ∃ f, (fun case => (get_full_index t.shape.length case
          (List.range t.shape.length)).bind (ravel t.shape)) row = some f ∧
        f < (List.replicate t.shape.prod (0 : ℤ)).length := by
    intro row hrow
    obtain ⟨r, hrL, rfl⟩ := List.mem_map.mp hrow
    unfold gen_contingency_to_case_form at hrL
    rw [List.mem_flatMap] at hrL
    obtain ⟨j, hjjs, hrep⟩ := hrL
    have hjP : j < t.shape.prod := List.mem_range.mp (List.mem_filter.mp hjjs).1
    rw [List.eq_of_mem_replicate hrep]
    exact ⟨j, gen_F_unflatten t.shape j hjP,
      by rw [List.length_replicate]; exact hjP⟩
  obtain ⟨res, hfold, hreslen, hcnt⟩ :=
    incrFold_count (fun case => (get_full_index t.shape.length case
      (List.range t.shape.length)).bind (ravel t.shape))
      ((gen_contingency_to_case_form t).map (fun r => r.map fun k : ℕ => (k : ℚ)))
      (List.replicate t.shape.prod 0) hF
  have hres : res = t.data := by
    apply ext_getD
    · rw [hreslen, List.length_replicate, hlen]
    · intro j'
      rw [hcnt j', getD_replicate_zero, zero_add, List.countP_map]
      unfold gen_contingency_to_case_form
      rw [List.countP_flatMap]
      have hterm : ∀ j ∈ (List.range t.shape.prod).filter
          (fun j => decide (t.data.getD j 0 ≠ 0)),
          ((List.countP ((fun a => decide ((fun case =>
              (get_full_index t.shape.length case
                (List.range t.shape.length)).bind (ravel t.shape)) a = some j')) ∘
            (fun r => r.map fun k : ℕ => (k : ℚ)))) ∘
            (fun j => List.replicate (t.data.getD j 0).toNat (unflatten t.shape j))) j =
          (fun j => if j = j' then (t.data.getD j 0).toNat else 0) j := by
        intro j hj
        have hjP : j < t.shape.prod := List.mem_range.mp (List.mem_filter.mp hj).1
        simp only [Function.comp_apply, List.countP_replicate,
          gen_F_unflatten t.shape j hjP]
        by_cases hjj : j = j'
        · subst hjj
          simp
        · rw [if_neg hjj]
          simp [hjj]
      rw [List.map_congr_left hterm]
      rw [sum_if_single _ j' _ (List.Nodup.filter _ (List.nodup_range _))]
      by_cases hj'P : j' < t.shape.prod
      · by_cases hzero : t.data.getD j' 0 = 0
        · rw [if_neg (by
            intro hmem
            exact of_decide_eq_true (List.mem_filter.mp hmem).2 hzero), hzero]
          rfl
        · rw [if_pos (List.mem_filter.mpr
            ⟨List.mem_range.mpr hj'P, decide_eq_true hzero⟩)]
          exact Int.toNat_of_nonneg (getD_nonneg hnn j')
      · rw [if_neg (by
          intro hmem
          exact hj'P (List.mem_range.mp (List.mem_filter.mp hmem).1))]
        rw [List.getD_eq_getElem?_getD, List.getElem?_eq_none (by rw [hlen]; omega)]
        rfl
  unfold gen_case_form_to_contingency
  rw [hs]
  show List.foldlM (incrStep fun case => (get_full_index t.shape.length case
      (List.range t.shape.length)).bind (ravel t.shape))
    (List.replicate t.shape.prod 0)
    ((gen_contingency_to_case_form t).map fun r => r.map fun k : ℕ => (k : ℚ)) =
    .ok t.data
  rw [hfold, hres]

/-- Witness for C2 at a concrete 2×2 table with three observations spread
over two cells. -/
theorem claim_C2_witness :
    gen_case_form_to_contingency
      (.d2 ((gen_contingency_to_case_form ⟨[2, 2], [0, 2, 0, 1]⟩).map
        fun r => r.map fun k : ℕ => (k : ℚ)))
      ([2, 2] : List ℕ) none = .ok [0, 2, 0, 1] :=
  claim_C2_roundtrip_amended ⟨[2, 2], [0, 2, 0, 1]⟩ (by decide) (by decide)
    ⟨2, by decide, by decide⟩

/-! ### Category mapping -/

theorem getD_set_self' {α : Type} (l : List α) (f : ℕ) (v d : α) (h : f < l.length) :
    (l.set f v).getD f d = v := by
  simp [List.getD_eq_getElem?_getD, List.getElem?_set, h]

theorem getD_set_ne' {α : Type} (l : List α) {f j : ℕ} (v d : α) (h : f ≠ j) :
    (l.set f v).getD j d = l.getD j d := by
  simp [List.getD_eq_getElem?_getD, List.getElem?_set, h]

theorem getD_zipWith_lt {α β γ : Type} (f : α → β → γ) (l1 : List α) (l2 : List β)
    (d1 : α) (d2 : β) (d3 : γ) {ri : ℕ} (h1 : ri < l1.length) (h2 : ri < l2.length) :
    (List.zipWith f l1 l2).getD ri d3 = f (l1.getD ri d1) (l2.getD ri d2) := by
  rw [List.getD_eq_getElem?_getD, List.getD_eq_getElem?_getD, List.getD_eq_getElem?_getD,
    List.getElem?_eq_getElem (show ri < (List.zipWith f l1 l2).length by
      rw [List.length_zipWith]
      omega),
    List.getElem?_eq_getElem h1, List.getElem?_eq_getElem h2]
  simp [List.getElem_zipWith]

theorem acm_fold_cell (category_map : List (String × List (String × ℤ)))
    (var_list : Option (List String)) (data : List (List Cell)) :
    ∀ (L : List ℕ) (res : List (List Cell)),
      res.length = data.length →
      (∀ ri, (res.getD ri []).length = (data.getD ri []).length) →
      ∀ ri i, ri < data.length → i < (data.getD ri []).length →
        (∀ vm, List.lookup (varName var_list i) category_map = some vm →
          cellAt (L.foldl (fun res i =>
              match List.lookup (varName var_list i) category_map with
              | some var_map =>
                List.zipWith
                  (fun rrow drow =>
                    rrow.set i (map_category (drow.getD i (.str "")) var_map))
                  res data
              | none => res) res) ri i =
            if i ∈ L then map_category (cellAt data ri i) vm else cellAt res ri i) ∧
        (List.lookup (varName var_list i) category_map = none →
          cellAt (L.foldl (fun res i =>
              match List.lookup (varName var_list i) category_map with
              | some var_map =>
                List.zipWith
                  (fun rrow drow =>
                    rrow.set i (map_category (drow.getD i (.str "")) var_map))
                  res data
              | none => res) res) ri i = cellAt res ri i) := by
  intro L
  induction L with
  | nil =>
    intro res _ _ ri i _ _
    refine ⟨fun vm _ => ?_, fun _ => rfl⟩
    rw [List.foldl_nil, if_neg (List.not_mem_nil i)]
  | cons i0 L' ih =>
    intro res hlen hrow ri i hri hic
    rw [List.foldl_cons]
    split
    next vm0 hlk0 =>
      have hlen' : (List.zipWith
          (fun rrow drow => rrow.set i0 (map_category (drow.getD i0 (.str "")) vm0))
          res data).length = data.length := by
        rw [List.length_zipWith, hlen]
        exact Nat.min_self _
      have hrow' : ∀ rj, ((List.zipWith
          (fun rrow drow => rrow.set i0 (map_category (drow.getD i0 (.str "")) vm0))
          res data).getD rj []).length = (data.getD rj []).length := by
        intro rj
        rcases Nat.lt_or_ge rj data.length with hrj | hrj
        · rw [getD_zipWith_lt _ res data [] [] [] (by rw [hlen]; exact hrj) hrj,
            List.length_set]
          exact hrow rj
        · rw [List.getD_eq_getElem?_getD,
            List.getElem?_eq_none (by rw [List.length_zipWith, hlen]; omega)]
          rw [List.getD_eq_getElem?_getD data, List.getElem?_eq_none (by omega)]
      obtain ⟨ih1, ih2⟩ := ih _ hlen' hrow' ri i hri hic
      constructor
      · intro vm hlk
        rw [ih1 vm hlk]
        by_cases hiL : i ∈ L'
        · rw [if_pos hiL, if_pos (List.mem_cons_of_mem _ hiL)]
        · by_cases hii : i = i0
          · subst hii
            rw [if_neg hiL, if_pos (List.mem_cons_self i L')]
            have hv : vm0 = vm := Option.some.inj (hlk0.symm.trans hlk)
            subst hv
            unfold cellAt
            rw [getD_zipWith_lt _ res data [] [] [] (by rw [hlen]; exact hri) hri]
            rw [getD_set_self' _ _ _ _ (by rw [hrow ri]; exact hic)]
          · rw [if_neg hiL, if_neg (by
              intro hc
              rcases List.mem_cons.mp hc with h | h
              · exact hii h
              · exact hiL h)]
            unfold cellAt
            rw [getD_zipWith_lt _ res data [] [] [] (by rw [hlen]; exact hri) hri]
            rw [getD_set_ne' _ _ _ (Ne.symm hii)]
      · intro hlk
        rw [ih2 hlk]
        have hii : i ≠ i0 := by
          intro h
          rw [h, hlk0] at hlk
          cases hlk
        unfold cellAt
        rw [getD_zipWith_lt _ res data [] [] [] (by rw [hlen]; exact hri) hri]
        rw [getD_set_ne' _ _ _ (Ne.symm hii)]
    next hlk0 =>
      obtain ⟨ih1, ih2⟩ := ih res hlen hrow ri i hri hic
      constructor
      · intro vm hlk
        rw [ih1 vm hlk]
        by_cases hiL : i ∈ L'
        · rw [if_pos hiL, if_pos (List.mem_cons_of_mem _ hiL)]
        · by_cases hii : i = i0
          · subst hii
            rw [hlk] at hlk0
            cases hlk0
          · rw [if_neg hiL, if_neg (by
              intro hc
              rcases List.mem_cons.mp hc with h | h
              · exact hii h
              · exact hiL h)]
      · intro hlk
        exact ih2 hlk

theorem apply_column_maps_cell (data : List (List Cell))
    (category_map : List (String × List (String × ℤ)))
    (var_list : Option (List String)) (n_vars : ℕ) {ri i : ℕ}
    (hri : ri < data.length) (hic : i < (data.getD ri []).length) :
    (∀ vm, List.lookup (varName var_list i) category_map = some vm →
      cellAt (apply_column_maps data category_map var_list n_vars) ri i =
        if i < n_vars then map_category (cellAt data ri i) vm
        else cellAt data ri i) ∧
    (List.lookup (varName var_list i) category_map = none →
      cellAt (apply_column_maps data category_map var_list n_vars) ri i =
        cellAt data ri i) := by
  unfold apply_column_maps
  obtain ⟨h1, h2⟩ := acm_fold_cell category_map var_list data (List.range n_vars)
    data rfl (fun _ => rfl) ri i hri hic
  refine ⟨fun vm hvm => ?_, fun hnone => h2 hnone⟩
  rw [h1 vm hvm]
  by_cases hin : i < n_vars
  · rw [if_pos (List.mem_range.mpr hin), if_pos hin]
  · rw [if_neg (fun hc => hin (List.mem_range.mp hc)), if_neg hin]

theorem mapM_none_of_mem {α β : Type} (f : α → Option β) :
    ∀ (l : List α) (a : α), a ∈ l → f a = none → l.mapM f = none := by
  intro l
  induction l with
  | nil =>
    intro a ha
    simp at ha
  | cons x xs ih =>
    intro a ha hfa
    rcases List.mem_cons.mp ha with h | h
    · rw [List.mapM_cons, ← h, hfa]
      rfl
    · rw [List.mapM_cons]
      cases hfx : f x with
      | none => rfl
      | some y =>
        rw [ih a h hfa]
        rfl

theorem coerceGrid_none_of_bad {g : List (List Cell)}
    (h : ∃ row ∈ g, ∃ s, Cell.str s ∈ row ∧ parseFloat? s = none) :
    coerceGrid g = none := by
  obtain ⟨row, hrow, s, hs, hps⟩ := h
  unfold coerceGrid
  apply mapM_none_of_mem _ g row hrow
  exact mapM_none_of_mem coerceCell row (Cell.str s) hs hps

theorem mem_badValues {g : List (List Cell)} {row : List Cell} {s : String}
    (hrow : row ∈ g) (hs : Cell.str s ∈ row) : s ∈ badValues g := by
  unfold badValues
  rw [List.mem_dedup, List.mem_flatMap]
  refine ⟨row, hrow, ?_⟩
  rw [List.mem_filterMap]
  exact ⟨Cell.str s, hs, rfl⟩

/-- C8: for a non-numeric case- or frequency-form array, (i) each string
cell of a mapped variable's column is stripped of surrounding whitespace and
replaced by its mapped integer, a label absent from the variable's map
passing through (stripped) unchanged, and (ii) when some residual string
value is not numeric, the final float coercion fails with a
numeric-conversion error naming the distinct string values of the mapped
array as a set — containing, in particular, every unconvertible residual. -/
theorem claim_C8_category_mapping (data : List (List Cell))
    (category_map : List (String × List (String × ℤ)))
    (var_list : Option (List String)) (data_form : String) (n_cols : ℕ)
    (hcols : n_cols = (data.head?.getD []).length)
    (hform : data_form = "case_form" ∨ data_form = "frequency_form")
    (hnum : ¬ (data.all fun r => r.all Cell.isNum) = true)
    (hrect : ∀ r ∈ data, r.length = n_cols)
    (hvl : var_list = none ∨
      ∃ l, var_list = some l ∧ l ≠ [] ∧ l.length = n_cols)
    (hbad : ∃ row ∈ apply_column_maps data category_map var_list n_cols,
      ∃ s, Cell.str s ∈ row ∧ parseFloat? s = none) :
    (∀ ri i, ri < data.length → i < n_cols →
      ∀ vm, List.lookup (varName var_list i) category_map = some vm →
        ∀ s, cellAt data ri i = Cell.str s →
          cellAt (apply_column_maps data category_map var_list n_cols) ri i =
            (match List.lookup (pyStrip s) vm with
             | some k => Cell.num (k : ℚ)
             | none => Cell.str (pyStrip s))) ∧
    apply_category_mapping data category_map var_list data_form =
      .error (.numericConversion
        (badValues (apply_column_maps data category_map var_list n_cols))) ∧
    ∀ s, (∃ row ∈ apply_column_maps data category_map var_list n_cols,
        Cell.str s ∈ row) →
      s ∈ badValues (apply_column_maps data category_map var_list n_cols) := by
  have hicol : ∀ ri, ri < data.length → (data.getD ri []).length = n_cols := by
    intro ri hri
    apply hrect
    rw [List.getD_eq_getElem?_getD, List.getElem?_eq_getElem hri]
    exact List.getElem_mem hri
  refine ⟨?_, ?_, ?_⟩
  · intro ri i hri hin vm hvm s hstr
    rw [(apply_column_maps_cell data category_map var_list n_cols hri
      (by rw [hicol ri hri]; exact hin)).1 vm hvm]
    rw [if_pos hin, hstr]
    rfl
  · subst hcols
    rcases hvl with h | ⟨l, hl, hne, hlenl⟩
    · subst h
      unfold apply_category_mapping
      rw [if_neg hnum]
      simp only []
      rw [if_pos hform, coerceGrid_none_of_bad hbad]
    · subst hl
      unfold apply_category_mapping
      rw [if_neg hnum]
      simp only []
      rw [if_pos hform, if_pos hne, hlenl, coerceGrid_none_of_bad hbad]
  · intro s ⟨row, hrow, hs⟩
    exact mem_badValues hrow hs

/-- Witness for C8: a 1×2 array with a mapped label `" a "` (trimmed and
mapped to 1) and an unmapped, non-numeric label `"x"`; the call fails naming
`{"x"}`. -/
theorem claim_C8_witness :
    (∀ ri i, ri < ([[Cell.str " a ", Cell.str "x"]] : List (List Cell)).length →
      i < 2 →
      ∀ vm, List.lookup (varName (some ["v1", "v2"]) i)
          [("v1", [("a", (1 : ℤ))])] = some vm →
        ∀ s, cellAt [[Cell.str " a ", Cell.str "x"]] ri i = Cell.str s →
          cellAt (apply_column_maps [[Cell.str " a ", Cell.str "x"]]
              [("v1", [("a", (1 : ℤ))])] (some ["v1", "v2"]) 2) ri i =
            (match List.lookup (pyStrip s) vm with
             | some k => Cell.num (k : ℚ)
             | none => Cell.str (pyStrip s))) ∧
    apply_category_mapping [[Cell.str " a ", Cell.str "x"]]
      [("v1", [("a", (1 : ℤ))])] (some ["v1", "v2"]) "case_form" =
      .error (.numericConversion
        (badValues (apply_column_maps [[Cell.str " a ", Cell.str "x"]]
          [("v1", [("a", (1 : ℤ))])] (some ["v1", "v2"]) 2))) ∧
    ∀ s, (∃ row ∈ apply_column_maps [[Cell.str " a ", Cell.str "x"]]
        [("v1", [("a", (1 : ℤ))])] (some ["v1", "v2"]) 2,
        Cell.str s ∈ row) →
      s ∈ badValues (apply_column_maps [[Cell.str " a ", Cell.str "x"]]
        [("v1", [("a", (1 : ℤ))])] (some ["v1", "v2"]) 2) :=
  claim_C8_category_mapping [[Cell.str " a ", Cell.str "x"]]
    [("v1", [("a", (1 : ℤ))])] (some ["v1", "v2"]) "case_form" 2
    (by decide) (Or.inl rfl) (by decide) (by decide)
    (Or.inr ⟨["v1", "v2"], rfl, by decide, by decide⟩)
    ⟨[Cell.num 1, Cell.str "x"], by decide, "x", by decide, by decide⟩

end Utils

